import Mathlib

/-!
# Verification of the horizontal-history timeline chart core

This file embeds the core of `src/image.js` (interval model, column/lane
allocator `Image.assignCols`, coordinate mapping in `Bar.update` /
`Bar.moveToCol`, image resizing `Image.updateSize`, and scroll offset
`Image.setOffset` / `Image.updateOffset`) as Lean definitions, and proves
the specified properties about them.

Conventions of the embedding:
* A bar is the record of the fields the allocator reads: `startYr` and the
  already-resolved `effectiveEndYr` (plus an `id` so distinct bars can be
  told apart).  Resolution of a `null` end year to the current year
  (`Bar` constructor / `Bar.update`) is modelled by `mkEffectiveEndYr`.
* `this.bars.sort(cmp)` uses a JavaScript stable sort (ECMA-262, ES2019)
  with comparator `cmp(a,b) = b.effectiveEndYr - a.effectiveEndYr`, ties
  `b.startYr - a.startYr`.  A stable sort by a total preorder is modelled
  by `List.insertionSort` over the relation `barLe a b ↔ cmp a b ≤ 0`.
* The `forEach` loop over the sorted bars with its `colsAvailYr` array and
  `findIndex` scan is modelled by `List.foldl stepFn` with
  `List.findIdx?`; `bar.moveToCol k` is modelled by recording the pair
  `(bar, k)` in the accumulated assignment list.
* The wall-clock constant `curYr` (`new Date().getFullYear()`) is passed
  as an explicit parameter.
-/

/-- The fields of a figure bar read by the column allocator:
`startYr` and the resolved `effectiveEndYr` (source `Bar` object). -/
structure Bar where
  id : Nat
  startYr : Int
  effectiveEndYr : Int
deriving DecidableEq, Repr

/-- The sort comparator of `Image.assignCols` (source lines 1060-1067):
`cmp(a,b) = b.effectiveEndYr - a.effectiveEndYr`, on ties
`b.startYr - a.startYr`.  `barLe a b` holds iff `cmp a b ≤ 0`, i.e. iff a
stable sort may keep `a` before `b`: descending `effectiveEndYr`, ties
broken by descending `startYr`. -/
def barLe (a b : Bar) : Prop :=
  b.effectiveEndYr < a.effectiveEndYr ∨
    (b.effectiveEndYr = a.effectiveEndYr ∧ b.startYr ≤ a.startYr)

instance : DecidableRel barLe := fun a b => by
  unfold barLe; exact inferInstance

instance : IsTotal Bar barLe := by
  constructor
  intro a b
  unfold barLe
  rcases lt_trichotomy a.effectiveEndYr b.effectiveEndYr with h | h | h
  · exact Or.inr (Or.inl h)
  · rcases le_total a.startYr b.startYr with hs | hs
    · exact Or.inr (Or.inr ⟨h, hs⟩)
    · exact Or.inl (Or.inr ⟨h.symm, hs⟩)
  · exact Or.inl (Or.inl h)

instance : IsTrans Bar barLe := by
  constructor
  intro a b c hab hbc
  unfold barLe at *
  rcases hab with h1 | ⟨h1, h1s⟩ <;> rcases hbc with h2 | ⟨h2, h2s⟩
  · exact Or.inl (h2.trans h1)
  · exact Or.inl (h2 ▸ h1)
  · exact Or.inl (h1 ▸ h2)
  · exact Or.inr ⟨h2.trans h1, h2s.trans h1s⟩

/-- `this.bars.sort(cmp)`: the stable sort of the bar list by the
comparator of `Image.assignCols`. -/
def sortBars (bars : List Bar) : List Bar :=
  List.insertionSort barLe bars

/-- One iteration of the `forEach` loop in `Image.assignCols`
(source lines 1070-1091).  State: the assignment list built so far
(each processed bar with the column it was moved to) and `colsAvailYr`.
`findIdx?` is `colsAvailYr.findIndex(availYr => availYr >= bar.effectiveEndYr)`;
on `-1` (`none`) a new column is appended, otherwise entry `k` is
overwritten with the bar's `startYr`. -/
def stepFn (st : List (Bar × Nat) × List Int) (bar : Bar) :
    List (Bar × Nat) × List Int :=
  match st.2.findIdx? (fun availYr => decide (bar.effectiveEndYr ≤ availYr)) with
  | none => (st.1 ++ [(bar, st.2.length)], st.2 ++ [bar.startYr])
  | some k => (st.1 ++ [(bar, k)], st.2.set k bar.startYr)

/-- The `forEach` loop of `Image.assignCols` over an already-sorted list,
starting from the empty assignment and `colsAvailYr = []`. -/
def runAlloc (bars : List Bar) : List (Bar × Nat) × List Int :=
  bars.foldl stepFn ([], [])

/-- `Image.assignCols` (source lines 1059-1091): sort the bars, then run
the greedy first-fit loop.  Returns the per-bar column assignment (in
processing order) and the final `colsAvailYr` array. -/
def assignCols (bars : List Bar) : List (Bar × Nat) × List Int :=
  runAlloc (sortBars bars)

/-- The number of columns produced by `Image.assignCols`: the final
length of `colsAvailYr`. -/
def colCount (bars : List Bar) : Nat :=
  (assignCols bars).2.length

/-- Number of bars in the list whose half-open span
`[startYr, effectiveEndYr)` contains the instant `t`. -/
def coverCount (bars : List Bar) (t : Int) : Nat :=
  (bars.filter (fun b => decide (b.startYr ≤ t) && decide (t < b.effectiveEndYr))).length

/-- Number of bars in the list whose closed span
`[startYr, effectiveEndYr]` contains the instant `t`. -/
def coverCountClosed (bars : List Bar) (t : Int) : Nat :=
  (bars.filter (fun b => decide (b.startYr ≤ t) && decide (t ≤ b.effectiveEndYr))).length

-- Constants of the source (lines 695-703)

/-- `getDecadeForYr`: `Math.floor(yr / 10)` (source line 689-691). -/
def getDecadeForYr (yr : Int) : Int := yr.fdiv 10

/-- `indexYr = (curDecade + 1) * 10`: one decade past the current decade
(source lines 695-697), as a function of the wall-clock year `curYr`. -/
def indexYrOf (curYr : Int) : Int := (getDecadeForYr curYr + 1) * 10

/-- `yrHeight = 3` (source line 699). -/
def yrHeight : Int := 3

/-- `decadeWidth = 60` (source line 701). -/
def decadeWidth : Int := 60

/-- `colWidth = 30` (source line 703). -/
def colWidth : Int := 30

/-- Resolution of the end year in the `Bar` constructor / `Bar.update`
(source lines 776-781): `null`/absent (`none`) means "still alive" and
resolves to the current year, otherwise `effectiveEndYr = endYr`. -/
def mkEffectiveEndYr (endYr : Option Int) (curYr : Int) : Int :=
  match endYr with
  | none => curYr
  | some e => e

/-- The geometry values computed by `Bar.update` (source lines 776-786):
resolved end year, `x = colIdx * colWidth`,
`height = (effectiveEndYr - startYr) * yrHeight` (the bar's extent along
the time axis) and `y = (indexYr - effectiveEndYr) * yrHeight`. -/
structure BarGeom where
  effectiveEndYr : Int
  x : Int
  height : Int
  y : Int
deriving DecidableEq, Repr

/-- `Bar.update` geometry computation (source lines 776-786).  There is no
validation of `startYr` against the resolved end year anywhere in
`Bar.update` or `Image.addBar`. -/
def barUpdateGeom (colIdx : Nat) (startYr : Int) (endYr : Option Int)
    (curYr : Int) : BarGeom :=
  let eff := mkEffectiveEndYr endYr curYr
  { effectiveEndYr := eff
    x := (colIdx : Int) * colWidth
    height := (eff - startYr) * yrHeight
    y := (indexYrOf curYr - eff) * yrHeight }

/-- The bar record produced by the `Bar` constructor for the allocator:
the end year is resolved exactly as in `Bar.update`. -/
def mkBar (id : Nat) (startYr : Int) (endYr : Option Int) (curYr : Int) : Bar :=
  { id := id, startYr := startYr,
    effectiveEndYr := mkEffectiveEndYr endYr curYr }

/-- `Image.addBar` (source lines 1193-1197): builds a `Bar` (whose
constructor pushes it onto `this.bars` and calls `this.update`, which ends
by calling `image.assignCols()`).  No validation is performed.  Returns
the new bar list and the result of the reallocation over it. -/
def addBar (bars : List Bar) (id : Nat) (startYr : Int) (endYr : Option Int)
    (curYr : Int) : List Bar × (List (Bar × Nat) × List Int) :=
  let bars' := bars ++ [mkBar id startYr endYr curYr]
  (bars', assignCols bars')

/-- The size fields of the `Image` object. -/
structure ImageState where
  outerWidth : Int
  outerHeight : Int
  width : Int
  height : Int
deriving DecidableEq, Repr

/-- `Image.updateSize` (source lines 1318-1339): stores the new outer
size and the inner size one pixel smaller (the svg attributes are set
from these fields). -/
def updateSize (_st : ImageState) (width height : Int) : ImageState :=
  { outerWidth := width, outerHeight := height,
    width := width - 1, height := height - 1 }

/-- `Image.assignCols` including its resize step (source lines 1093-1094):
`this.updateSize(decadeWidth + colWidth * (colsAvailYr.length + 1), this.height)`. -/
def assignColsImage (st : ImageState) (bars : List Bar) :
    ImageState × (List (Bar × Nat) × List Int) :=
  let res := assignCols bars
  (updateSize st (decadeWidth + colWidth * ((res.2.length : Int) + 1)) st.height, res)

/-- `Image.setOffset` (source lines 975-986): a positive offset is
clamped to `0` before being stored in the `offset` attribute and applied
as the vertical translation. -/
def setOffsetVal (offset : Int) : Int :=
  if 0 < offset then 0 else offset

/-- `Image.updateOffset` (source lines 962-964):
`setOffset(currentOffset + offsetDelta)`. -/
def updateOffsetVal (currentOffset offsetDelta : Int) : Int :=
  setOffsetVal (currentOffset + offsetDelta)

/-- The predicate selecting the bars tied on both sort keys. -/
def tiedKeys (E S : Int) (b : Bar) : Bool :=
  decide (b.effectiveEndYr = E) && decide (b.startYr = S)

/-- Disjointness, in placement order: if `q` was placed after `p` in the
same column then `q`'s span ends no later than `p`'s span starts. -/
def SameColOk (p q : Bar × Nat) : Prop :=
  p.2 = q.2 → q.1.effectiveEndYr ≤ p.1.startYr

/-- Invariant of the `forEach` loop of `Image.assignCols` relating the
assignment built so far to `colsAvailYr`: assigned column indices are in
range, each `colsAvailYr` entry bounds the start years of its column's
occupants from below and is realised by one representative occupant per
column, and bars sharing a column are chronologically disjoint. -/
structure AllocInv (asg : List (Bar × Nat)) (avail : List Int) : Prop where
  colLt : ∀ p ∈ asg, p.2 < avail.length
  availLe : ∀ p ∈ asg, ∀ v ∈ avail[p.2]?, v ≤ p.1.startYr
  reps : ∃ rl : List (Bar × Nat), List.Sublist rl asg ∧
      (rl.map Prod.snd).Perm (List.range avail.length) ∧
      ∀ p ∈ rl, avail[p.2]? = some p.1.startYr
  disj : asg.Pairwise SameColOk


/-- Number of assignment pairs whose bar's half-open span
`[startYr, effectiveEndYr)` contains the instant `t`. -/
def coverPairsCount (asg : List (Bar × Nat)) (t : Int) : Nat :=
  (asg.filter (fun p => decide (p.1.startYr ≤ t) &&
    decide (t < p.1.effectiveEndYr))).length

/-!
## Error handling at the add/update boundary (claim C5)

`Image.addBar` (source lines 1193-1197) and `Bar.update` (source lines
766-832) contain no validation of the interval: an interval with
`startYr > effectiveEndYr` is stored, handed to `assignCols`, assigned a
column, and drawn as a bar of negative length.
-/

/-- C5 counterexample: adding the inverted interval `{2000, 1990}` is not
rejected: the bar reaches the allocator and receives column 0, and the
geometry computed by `Bar.update` has negative length `(1990-2000)*3 = -30`. -/
theorem addBar_no_validation_counterexample :
    (addBar [] 0 2000 (some 1990) 2024).2.1 = [(⟨0, 2000, 1990⟩, 0)] ∧
    (barUpdateGeom 0 2000 (some 1990) 2024).height = -30 := by
  constructor <;> rfl

/-- C5 amended: neither `Image.addBar` nor `Bar.update` validates the
interval.  Every interval with `startYr > effectiveEndYr` flows to the
column allocator unchanged (here: added to an empty chart, it is assigned
column 0) and produces a bar of negative length. -/
theorem addBar_no_validation (id : Nat) (s e curYr : Int) (colIdx : Nat)
    (h : e < s) :
    (addBar [] id s (some e) curYr).2.1 = [(⟨id, s, e⟩, 0)] ∧
    (barUpdateGeom colIdx s (some e) curYr).height < 0 := by
  constructor
  · rfl
  · show (e - s) * yrHeight < 0
    have hneg : e - s < 0 := by omega
    have : (0 : Int) < yrHeight := by decide
    exact mul_neg_of_neg_of_pos hneg this

/-- Witness for `addBar_no_validation` at the concrete input of the
counterexample. -/
theorem addBar_no_validation_witness :
    (addBar [] 0 2000 (some 1990) 2024).2.1 = [(⟨0, 2000, 1990⟩, 0)] ∧
    (barUpdateGeom 0 2000 (some 1990) 2024).height < 0 :=
  addBar_no_validation 0 2000 1990 2024 0 (by decide)

/-!
## Coordinate mapping (claims C6, C7)
-/

/-- C6: the geometry computed when positioning a bar (`Bar.update`,
source lines 783-786) satisfies `x = colIdx * colWidth`,
`length = (effectiveEndYr - startYr) * yrHeight` and
`y = (indexYr - effectiveEndYr) * yrHeight`, where
`indexYr = (curDecade + 1) * 10` is one decade past the current decade;
in particular the bar `{1900, 1950}` with `colIdx = 2` evaluated when the
current year is 2024 (so `indexYr = 2030`) gets `x = 60`, `length = 150`,
`y = 240`. -/
theorem barUpdateGeom_coordinates (colIdx : Nat) (startYr : Int)
    (endYr : Option Int) (curYr : Int) :
    (barUpdateGeom colIdx startYr endYr curYr).x = (colIdx : Int) * colWidth ∧
    (barUpdateGeom colIdx startYr endYr curYr).height =
      (mkEffectiveEndYr endYr curYr - startYr) * yrHeight ∧
    (barUpdateGeom colIdx startYr endYr curYr).y =
      (indexYrOf curYr - mkEffectiveEndYr endYr curYr) * yrHeight ∧
    indexYrOf curYr = (getDecadeForYr curYr + 1) * 10 ∧
    barUpdateGeom 2 1900 (some 1950) 2024 =
      { effectiveEndYr := 1950, x := 60, height := 150, y := 240 } := by
  refine ⟨rfl, rfl, rfl, rfl, ?_⟩
  rfl

/-- C7: `Bar.update` / the `Bar` constructor resolve a `null`/absent
`endYr` to the current year and a present `endYr` to itself, before the
bar is handed to sorting and column packing (`assignCols` only ever sees
the resolved `effectiveEndYr` field).  In particular the open-ended bar
`{1950, open}` evaluated when the current year is 2024 gets
`effectiveEndYr = 2024`. -/
theorem effectiveEndYr_resolution (id : Nat) (startYr curYr e : Int) :
    mkEffectiveEndYr none curYr = curYr ∧
    mkEffectiveEndYr (some e) curYr = e ∧
    (mkBar id startYr none curYr).effectiveEndYr = curYr ∧
    (mkBar id startYr (some e) curYr).effectiveEndYr = e ∧
    (barUpdateGeom 0 1950 none 2024).effectiveEndYr = 2024 :=
  ⟨rfl, rfl, rfl, rfl, rfl⟩

/-!
## Resizing after reallocation (claim C9)
-/

/-- C9: after every reallocation, `assignCols` resizes the chart via
`updateSize(decadeWidth + colWidth * (colsAvailYr.length + 1), this.height)`
(source lines 1093-1094), so the new outer width is
`decadeWidth + colWidth * (columnCount + 1)` and the stored inner width is
one less. -/
theorem assignCols_resizes_width (st : ImageState) (bars : List Bar) :
    (assignColsImage st bars).1.outerWidth =
      decadeWidth + colWidth * ((colCount bars : Int) + 1) ∧
    (assignColsImage st bars).1.width =
      decadeWidth + colWidth * ((colCount bars : Int) + 1) - 1 ∧
    (assignColsImage st bars).1.outerHeight = st.height :=
  ⟨rfl, rfl, rfl⟩

/-!
## Scroll offset clamping (claim C10)
-/

/-- C10: `Image.setOffset` stores and applies `min(offset, 0)`: the
stored offset is never positive, after `setOffset` as well as after
`updateOffset` (which adds the delta to the stored offset and re-clamps),
so the chart can never be scrolled forwards past the current decade. -/
theorem setOffset_clamps_nonpositive (offset currentOffset delta : Int) :
    setOffsetVal offset = min offset 0 ∧
    setOffsetVal offset ≤ 0 ∧
    updateOffsetVal currentOffset delta = min (currentOffset + delta) 0 ∧
    updateOffsetVal currentOffset delta ≤ 0 := by
  have hmin : ∀ o : Int, setOffsetVal o = min o 0 := by
    intro o
    unfold setOffsetVal
    rcases le_or_lt o 0 with h | h
    · rw [if_neg (not_lt.mpr h), min_eq_left h]
    · rw [if_pos h, min_eq_right h.le]
  have hle : ∀ o : Int, setOffsetVal o ≤ 0 := by
    intro o; rw [hmin o]; exact min_le_right o 0
  exact ⟨hmin offset, hle offset, hmin _, hle _⟩

/-!
## The closed-overlap minimality statement fails (claim C1, counterexample)

Two bars that merely touch at a boundary year are packed into the same
column by the `availYr >= bar.effectiveEndYr` test, yet their closed
spans both contain the shared boundary instant.
-/

/-- C1 counterexample: for `A{1900,1920}` and `B{1920,1940}` the column
count is 1, but both closed spans contain the instant 1920, so the
maximum number of bars whose closed spans overlap at a single instant is
at least 2 and does not equal the column count. -/
theorem assignCols_closed_minimality_counterexample :
    colCount [⟨0, 1900, 1920⟩, ⟨1, 1920, 1940⟩] = 1 ∧
    coverCountClosed [⟨0, 1900, 1920⟩, ⟨1, 1920, 1940⟩] 1920 = 2 := by
  constructor <;> rfl

/-!
## Sort order, stability and idempotence (claims C3, C8)

`Image.assignCols` starts with `this.bars.sort(cmp)`.  ECMA-262 requires
`Array.prototype.sort` to be stable, so the resulting order is the unique
stable sort by the comparator, modelled by `List.insertionSort barLe`.
-/


/-- C3: `assignCols` processes the bars in the order produced by sorting
the whole bar set descending by `effectiveEndYr` with ties broken by
descending `startYr` (`Pairwise barLe`), a permutation of the input; the
sort is stable (bars tied on both keys keep their input order: filtering
any tie class commutes with the sort), and re-sorting sorted data changes
nothing. -/
theorem sortBars_order_and_stability (bars : List Bar) :
    (sortBars bars).Perm bars ∧
    (sortBars bars).Pairwise barLe ∧
    (∀ E S : Int,
      (sortBars bars).filter (tiedKeys E S) = bars.filter (tiedKeys E S)) ∧
    sortBars (sortBars bars) = sortBars bars := by
  refine ⟨List.perm_insertionSort barLe bars,
    List.sorted_insertionSort barLe bars, ?_,
    (List.sorted_insertionSort barLe bars).insertionSort_eq⟩
  intro E S
  have hkeys : ∀ b : Bar, tiedKeys E S b = true →
      b.effectiveEndYr = E ∧ b.startYr = S := by
    intro b hb
    unfold tiedKeys at hb
    simpa using hb
  have hpw : (bars.filter (tiedKeys E S)).Pairwise barLe := by
    apply List.pairwise_of_forall_mem_list
    intro a ha b hb
    have ha' := hkeys a (List.of_mem_filter ha)
    have hb' := hkeys b (List.of_mem_filter hb)
    exact Or.inr ⟨hb'.1.trans ha'.1.symm, hb'.2.trans ha'.2.symm ▸ le_refl _⟩
  have hsub : List.Sublist (bars.filter (tiedKeys E S)) (sortBars bars) :=
    List.sublist_insertionSort hpw (List.filter_sublist bars)
  have hself : (bars.filter (tiedKeys E S)).filter (tiedKeys E S) =
      bars.filter (tiedKeys E S) :=
    List.filter_eq_self.mpr (fun a ha => List.of_mem_filter ha)
  have hsub2 : List.Sublist (bars.filter (tiedKeys E S))
      ((sortBars bars).filter (tiedKeys E S)) := by
    have h := hsub.filter (tiedKeys E S)
    rwa [hself] at h
  have hlen : (bars.filter (tiedKeys E S)).length =
      ((sortBars bars).filter (tiedKeys E S)).length :=
    (((List.perm_insertionSort barLe bars).filter (tiedKeys E S)).length_eq).symm
  exact (hsub2.eq_of_length hlen).symm

/-- C8: the allocation is a deterministic pure function of the bar set;
in particular running `assignCols` a second time on the bar list left
behind by the first run (the source sorts `this.bars` in place, so the
second call sees the sorted list) yields the identical column assignment
for every bar and the same column count. -/
theorem assignCols_idempotent (bars : List Bar) :
    assignCols (sortBars bars) = assignCols bars ∧
    colCount (sortBars bars) = colCount bars := by
  have h : sortBars (sortBars bars) = sortBars bars :=
    (List.sorted_insertionSort barLe bars).insertionSort_eq
  have h2 : assignCols (sortBars bars) = assignCols bars := by
    show runAlloc (sortBars (sortBars bars)) = runAlloc (sortBars bars)
    rw [h]
  exact ⟨h2, by unfold colCount; rw [h2]⟩

/-!
## The allocator invariant (claims C2, C4, C1)

Invariant of the `forEach` loop of `Image.assignCols`, relating the
assignment built so far to `colsAvailYr`:
* every assigned column index is in range;
* `colsAvailYr[k]` is a lower bound on the `startYr` of every bar placed
  in column `k` (each new occupant starts no later than the previous
  occupants of its column);
* every entry of `colsAvailYr` is the `startYr` of some bar placed in
  that column (witnessed by a sublist holding one representative pair per
  column);
* bars sharing a column are chronologically disjoint: a later-placed bar
  ends (its `effectiveEndYr`) no later than every earlier occupant starts.
-/


/-- The invariant holds at the start of the loop. -/
theorem allocInv_nil : AllocInv [] [] := by
  refine ⟨by simp, by simp, ⟨[], by simp, by simp, by simp⟩, by simp⟩

/-- Case analysis on one loop iteration: the processed bar is appended to
the assignment with the least column index whose availability year
admits it (`colsAvailYr[k] >= bar.effectiveEndYr`), that entry being
overwritten with the bar's `startYr`; if no column admits it, a fresh
column (index = current column count) is appended holding the bar's
`startYr`. -/
theorem stepFn_cases (st : List (Bar × Nat) × List Int) (bar : Bar) :
    ∃ k, (stepFn st bar).1 = st.1 ++ [(bar, k)] ∧
      (((∃ v, st.2[k]? = some v ∧ bar.effectiveEndYr ≤ v) ∧
          (∀ j, j < k → ∀ v ∈ st.2[j]?, v < bar.effectiveEndYr) ∧
          (stepFn st bar).2 = st.2.set k bar.startYr) ∨
        (k = st.2.length ∧ (∀ v ∈ st.2, v < bar.effectiveEndYr) ∧
          (stepFn st bar).2 = st.2 ++ [bar.startYr])) := by
  cases hfind : st.2.findIdx? (fun availYr => decide (bar.effectiveEndYr ≤ availYr)) with
  | none =>
    refine ⟨st.2.length, ?_, Or.inr ⟨rfl, ?_, ?_⟩⟩
    · simp only [stepFn, hfind]
    · intro v hv
      have := (List.findIdx?_eq_none_iff.mp hfind) v hv
      simpa using this
    · simp only [stepFn, hfind]
  | some k =>
    obtain ⟨hk, hpk, hmin⟩ := List.findIdx?_eq_some_iff_getElem.mp hfind
    refine ⟨k, ?_, Or.inl ⟨⟨st.2[k], List.getElem?_eq_getElem hk, by simpa using hpk⟩, ?_, ?_⟩⟩
    · simp only [stepFn, hfind]
    · intro j hj v hv
      have hjk : j < st.2.length := hj.trans hk
      rw [List.getElem?_eq_getElem hjk] at hv
      have := hmin j hj
      simp only [Option.mem_def, Option.some.injEq] at hv
      subst hv
      simpa using this
    · simp only [stepFn, hfind]

/-- Mapping to the column components commutes with discarding the
representatives of one column. -/
theorem map_snd_filter_ne (rl : List (Bar × Nat)) (k : Nat) :
    (rl.filter (fun p => p.2 != k)).map Prod.snd =
      (rl.map Prod.snd).filter (fun j => j != k) := by
  induction rl with
  | nil => rfl
  | cons q rq ihq =>
    simp only [List.map_cons, List.filter_cons]
    cases hbq : q.2 != k
    · simpa [hbq] using ihq
    · simpa [hbq] using ihq

/-- One loop iteration preserves the invariant, provided the incoming
bar satisfies `startYr <= effectiveEndYr`. -/
theorem stepFn_inv {asg : List (Bar × Nat)} {avail : List Int} (bar : Bar)
    (inv : AllocInv asg avail)
    (hval : bar.startYr ≤ bar.effectiveEndYr) :
    AllocInv (stepFn (asg, avail) bar).1 (stepFn (asg, avail) bar).2 := by
  obtain ⟨k, hfst, hrest⟩ := stepFn_cases (asg, avail) bar
  rcases hrest with ⟨⟨v, hvk, hev⟩, hleast, hsnd⟩ | ⟨hk, hall, hsnd⟩
  · -- an existing column k is reused
    have hklen : k < avail.length := by
      by_contra hge
      rw [List.getElem?_eq_none (le_of_not_lt hge)] at hvk
      exact Option.noConfusion hvk
    rw [hfst, hsnd]
    constructor
    · intro p hp
      rw [List.length_set]
      rcases List.mem_append.mp hp with h | h
      · exact inv.colLt p h
      · simp only [List.mem_singleton] at h
        subst h
        exact hklen
    · intro p hp w hw
      rcases List.mem_append.mp hp with h | h
      · by_cases hpk : k = p.2
        · rw [← hpk, List.getElem?_set_self hklen] at hw
          simp only [Option.mem_def, Option.some.injEq] at hw
          subst hw
          have h1 : v ≤ p.1.startYr := inv.availLe p h v (by rw [← hpk]; exact hvk)
          exact le_trans (le_trans hval hev) h1
        · rw [List.getElem?_set_ne hpk] at hw
          exact inv.availLe p h w hw
      · simp only [List.mem_singleton] at h
        subst h
        rw [List.getElem?_set_self hklen] at hw
        simp only [Option.mem_def, Option.some.injEq] at hw
        subst hw
        exact le_refl _
    · obtain ⟨rl, hsub, hperm, hget⟩ := inv.reps
      refine ⟨rl.filter (fun p => p.2 != k) ++ [(bar, k)], ?_, ?_, ?_⟩
      · exact List.Sublist.append ((List.filter_sublist rl).trans hsub) (List.Sublist.refl _)
      · rw [List.length_set, List.map_append, map_snd_filter_ne]
        have hkmem : k ∈ List.range avail.length := List.mem_range.mpr hklen
        have h1 : ((rl.map Prod.snd).filter (fun j => j != k)).Perm
            ((List.range avail.length).filter (fun j => j != k)) :=
          hperm.filter _
        have h2 : (List.range avail.length).filter (fun j => j != k) =
            (List.range avail.length).erase k :=
          ((List.nodup_range avail.length).erase_eq_filter k).symm
        rw [h2] at h1
        exact (List.perm_append_singleton _ _).trans
          ((h1.cons k).trans (List.perm_cons_erase hkmem).symm)
      · intro p hp
        rcases List.mem_append.mp hp with h | h
        · have hpne : p.2 ≠ k := by
            have := List.of_mem_filter h
            simpa [bne_iff_ne] using this
          rw [List.getElem?_set_ne (Ne.symm hpne)]
          exact hget p (List.mem_of_mem_filter h)
        · simp only [List.mem_singleton] at h
          subst h
          exact List.getElem?_set_self hklen
    · rw [List.pairwise_append]
      refine ⟨inv.disj, List.pairwise_singleton _ _, ?_⟩
      intro p hp q hq
      simp only [List.mem_singleton] at hq
      subst hq
      intro hcol
      have h1 : v ≤ p.1.startYr :=
        inv.availLe p hp v (by rw [hcol]; exact hvk)
      exact le_trans hev h1
  · -- a fresh column is appended
    subst hk
    rw [hfst, hsnd]
    constructor
    · intro p hp
      rw [List.length_append, List.length_singleton]
      rcases List.mem_append.mp hp with h | h
      · exact (inv.colLt p h).trans (Nat.lt_succ_self _)
      · simp only [List.mem_singleton] at h
        subst h
        exact Nat.lt_succ_self _
    · intro p hp w hw
      rcases List.mem_append.mp hp with h | h
      · rw [List.getElem?_append_left (inv.colLt p h)] at hw
        exact inv.availLe p h w hw
      · simp only [List.mem_singleton] at h
        subst h
        rw [List.getElem?_concat_length] at hw
        simp only [Option.mem_def, Option.some.injEq] at hw
        subst hw
        exact le_refl _
    · obtain ⟨rl, hsub, hperm, hget⟩ := inv.reps
      refine ⟨rl ++ [(bar, avail.length)], ?_, ?_, ?_⟩
      · exact List.Sublist.append hsub (List.Sublist.refl _)
      · rw [List.map_append, List.length_append, List.length_singleton]
        have : List.range (avail.length + 1) =
            List.range avail.length ++ [avail.length] := List.range_succ _
        rw [this]
        exact hperm.append (List.Perm.refl _)
      · intro p hp
        rcases List.mem_append.mp hp with h | h
        · have hlt : p.2 < avail.length := by
            have hmem : p.2 ∈ rl.map Prod.snd := List.mem_map_of_mem Prod.snd h
            exact List.mem_range.mp (hperm.mem_iff.mp hmem)
          rw [List.getElem?_append_left hlt]
          exact hget p h
        · simp only [List.mem_singleton] at h
          subst h
          exact List.getElem?_concat_length _ _
    · rw [List.pairwise_append]
      refine ⟨inv.disj, List.pairwise_singleton _ _, ?_⟩
      intro p hp q hq
      simp only [List.mem_singleton] at hq
      subst hq
      intro hcol
      exact absurd (inv.colLt p hp) (by rw [hcol]; exact lt_irrefl _)

/-- The invariant holds after folding the loop over any list of valid
bars, from any state satisfying it. -/
theorem foldl_stepFn_inv (l : List Bar) :
    ∀ (asg : List (Bar × Nat)) (avail : List Int),
      AllocInv asg avail →
      (∀ b ∈ l, b.startYr ≤ b.effectiveEndYr) →
      AllocInv (l.foldl stepFn (asg, avail)).1 (l.foldl stepFn (asg, avail)).2 := by
  induction l with
  | nil =>
    intro asg avail inv _
    simpa using inv
  | cons b l ih =>
    intro asg avail inv hv
    rw [List.foldl_cons]
    have hstep := stepFn_inv b inv (hv b (List.mem_cons_self b l))
    exact ih (stepFn (asg, avail) b).1 (stepFn (asg, avail) b).2 hstep
      (fun c hc => hv c (List.mem_cons_of_mem b hc))

/-- C2: after `Image.assignCols` returns, any two distinct bars assigned
the same column index have `[startYr, effectiveEndYr]` ranges that do not
overlap except possibly at a shared boundary point (one of them ends no
later than the other starts).  This holds for every input bar list whose
bars satisfy `startYr <= effectiveEndYr`; since every add/update
triggers a fresh `assignCols` run over the whole current bar set, the
invariant is re-established by every such mutation (instantiate `bars`
with the post-mutation set, e.g. `(addBar bars ...).1`). -/
theorem assignCols_no_overlap_per_col (bars : List Bar)
    (hv : ∀ b ∈ bars, b.startYr ≤ b.effectiveEndYr) :
    ((assignCols bars).1).Pairwise (fun p q => p.2 = q.2 →
      p.1.effectiveEndYr ≤ q.1.startYr ∨ q.1.effectiveEndYr ≤ p.1.startYr) := by
  have hv' : ∀ b ∈ sortBars bars, b.startYr ≤ b.effectiveEndYr := fun b hb =>
    hv b ((List.perm_insertionSort barLe bars).mem_iff.mp hb)
  have inv := foldl_stepFn_inv (sortBars bars) [] [] allocInv_nil hv'
  exact inv.disj.imp (fun h hcol => Or.inr (h hcol))

/-- Witness for `assignCols_no_overlap_per_col` at the three-bar
scenario `A{1900,1920}`, `B{1920,1940}`, `C{1940,1960}`. -/
theorem assignCols_no_overlap_per_col_witness :
    (∀ b ∈ ([⟨0, 1900, 1920⟩, ⟨1, 1920, 1940⟩, ⟨2, 1940, 1960⟩] : List Bar),
      b.startYr ≤ b.effectiveEndYr) ∧
    ((assignCols [⟨0, 1900, 1920⟩, ⟨1, 1920, 1940⟩, ⟨2, 1940, 1960⟩]).1).Pairwise
      (fun p q => p.2 = q.2 →
        p.1.effectiveEndYr ≤ q.1.startYr ∨ q.1.effectiveEndYr ≤ p.1.startYr) :=
  ⟨by decide, assignCols_no_overlap_per_col _ (by decide)⟩


/-- Upper bound: bars covering a common instant occupy pairwise distinct
columns, so at no instant can the cover count exceed the column count. -/
theorem coverPairsCount_le_avail {asg : List (Bar × Nat)} {avail : List Int}
    (inv : AllocInv asg avail) (t : Int) :
    coverPairsCount asg t ≤ avail.length := by
  unfold coverPairsCount
  have hcov : ∀ p ∈ asg.filter (fun p => decide (p.1.startYr ≤ t) &&
      decide (t < p.1.effectiveEndYr)),
      p.1.startYr ≤ t ∧ t < p.1.effectiveEndYr := by
    intro p hp
    have := List.of_mem_filter hp
    simpa using this
  have hdisj : (asg.filter (fun p => decide (p.1.startYr ≤ t) &&
      decide (t < p.1.effectiveEndYr))).Pairwise SameColOk :=
    List.Pairwise.sublist (List.filter_sublist asg) inv.disj
  have hnd : ((asg.filter (fun p => decide (p.1.startYr ≤ t) &&
      decide (t < p.1.effectiveEndYr))).map Prod.snd).Nodup := by
    apply List.pairwise_map.mpr
    apply List.Pairwise.imp_of_mem ?_ hdisj
    intro p q hp hq hR heq
    obtain ⟨hps, hpe⟩ := hcov p hp
    obtain ⟨hqs, hqe⟩ := hcov q hq
    have := hR heq
    omega
  have hsubset : ((asg.filter (fun p => decide (p.1.startYr ≤ t) &&
      decide (t < p.1.effectiveEndYr))).map Prod.snd) ⊆
      List.range avail.length := by
    intro x hx
    obtain ⟨p, hp, rfl⟩ := List.mem_map.mp hx
    exact List.mem_range.mpr (inv.colLt p (List.mem_of_mem_filter hp))
  have hlen := (List.subperm_of_subset hnd hsubset).length_le
  simpa using hlen

/-- Lower bound: along the loop there is always an instant witnessing
that as many bars as there are columns overlap simultaneously (the
instant just before the end year of the bar that opened the last column),
provided every bar has positive duration and the bars are processed in
descending order of `effectiveEndYr`. -/
theorem foldl_stepFn_cov (l : List Bar) :
    ∀ (asg : List (Bar × Nat)) (avail : List Int),
      AllocInv asg avail →
      (∀ b ∈ l, b.startYr < b.effectiveEndYr) →
      (∀ b ∈ l, ∀ p ∈ asg, b.effectiveEndYr ≤ p.1.effectiveEndYr) →
      l.Pairwise (fun a c => c.effectiveEndYr ≤ a.effectiveEndYr) →
      (∃ t, avail.length ≤ coverPairsCount asg t) →
      ∃ t, (l.foldl stepFn (asg, avail)).2.length ≤
        coverPairsCount (l.foldl stepFn (asg, avail)).1 t := by
  induction l with
  | nil =>
    intro asg avail _ _ _ _ h
    simpa using h
  | cons b l ih =>
    intro asg avail inv hv hord hsorted hcov
    rw [List.foldl_cons]
    have hbv := hv b (List.mem_cons_self b l)
    apply ih _ _ (stepFn_inv b inv (le_of_lt hbv))
    · exact fun c hc => hv c (List.mem_cons_of_mem b hc)
    · intro c hc p hp
      obtain ⟨k, hfst, _⟩ := stepFn_cases (asg, avail) b
      rw [hfst] at hp
      rcases List.mem_append.mp hp with h | h
      · exact hord c (List.mem_cons_of_mem b hc) p h
      · simp only [List.mem_singleton] at h
        subst h
        exact List.rel_of_pairwise_cons hsorted hc
    · exact hsorted.of_cons
    · obtain ⟨k, hfst, hrest⟩ := stepFn_cases (asg, avail) b
      dsimp only at hfst hrest
      rcases hrest with ⟨_, _, hsnd⟩ | ⟨hk, hall, hsnd⟩
      · -- column reuse: the column count is unchanged and the cover
        -- count at the old witness instant cannot decrease
        obtain ⟨t, ht⟩ := hcov
        refine ⟨t, ?_⟩
        rw [hfst, hsnd, List.length_set]
        unfold coverPairsCount
        rw [List.filter_append, List.length_append]
        exact le_trans ht (Nat.le_add_right _ _)
      · -- fresh column: all representatives and the new bar cover the
        -- instant one year before the new bar's end
        subst hk
        obtain ⟨rl, hsub, hperm, hget⟩ := inv.reps
        refine ⟨b.effectiveEndYr - 1, ?_⟩
        rw [hfst, hsnd, List.length_append, List.length_singleton]
        have hrln : rl.length = avail.length := by
          have h := hperm.length_eq
          simpa using h
        have hcovall : ∀ p ∈ rl ++ [(b, avail.length)],
            (decide (p.1.startYr ≤ b.effectiveEndYr - 1) &&
              decide (b.effectiveEndYr - 1 < p.1.effectiveEndYr)) = true := by
          intro p hp
          rcases List.mem_append.mp hp with h | h
          · have hs : avail[p.2]? = some p.1.startYr := hget p h
            have h1 : p.1.startYr < b.effectiveEndYr :=
              hall _ (List.getElem?_mem hs)
            have h2 : b.effectiveEndYr ≤ p.1.effectiveEndYr :=
              hord b (List.mem_cons_self b l) p (hsub.subset h)
            simp only [Bool.and_eq_true, decide_eq_true_eq]
            omega
          · simp only [List.mem_singleton] at h
            subst h
            simp only [Bool.and_eq_true, decide_eq_true_eq]
            omega
        have hsub2 : List.Sublist (rl ++ [(b, avail.length)])
            ((asg ++ [(b, avail.length)]).filter
              (fun p => decide (p.1.startYr ≤ b.effectiveEndYr - 1) &&
                decide (b.effectiveEndYr - 1 < p.1.effectiveEndYr))) := by
          have h0 : List.Sublist (rl ++ [(b, avail.length)])
              (asg ++ [(b, avail.length)]) :=
            List.Sublist.append hsub (List.Sublist.refl _)
          have h1 := List.Sublist.filter
            (fun p => decide (p.1.startYr ≤ b.effectiveEndYr - 1) &&
              decide (b.effectiveEndYr - 1 < p.1.effectiveEndYr)) h0
          rwa [List.filter_eq_self.mpr hcovall] at h1
        have hle := hsub2.length_le
        rw [List.length_append, List.length_singleton] at hle
        unfold coverPairsCount
        omega

/-- The bars recorded in the assignment are exactly the processed bars,
in processing order. -/
theorem foldl_stepFn_map_fst (l : List Bar) :
    ∀ st : List (Bar × Nat) × List Int,
      ((l.foldl stepFn st).1).map Prod.fst = st.1.map Prod.fst ++ l := by
  induction l with
  | nil => intro st; simp
  | cons b l ih =>
    intro st
    rw [List.foldl_cons, ih]
    obtain ⟨k, hfst, _⟩ := stepFn_cases st b
    rw [hfst, List.map_append]
    simp

/-- Counting covering pairs is counting covering bars. -/
theorem coverPairsCount_eq_coverCount (asg : List (Bar × Nat)) (t : Int) :
    coverPairsCount asg t = coverCount (asg.map Prod.fst) t := by
  unfold coverPairsCount coverCount
  induction asg with
  | nil => rfl
  | cons p l ih =>
    simp only [List.map_cons, List.filter_cons]
    cases hc : (decide (p.1.startYr ≤ t) && decide (t < p.1.effectiveEndYr))
    · simpa [hc] using ih
    · simpa [hc] using ih

/-- C1 (amended): for every bar set of positive-duration bars
(`startYr < effectiveEndYr`), the column count of `Image.assignCols`
equals the maximum over all instants `t` of the number of bars whose
half-open spans `[startYr, effectiveEndYr)` contain `t`; bars that merely
touch at a boundary year do not count as overlapping.  In particular, for
`A{1900,1950}` and `B{1920,1960}` the column count is 2 and A and B
receive distinct columns. -/
theorem assignCols_minimal_halfOpen (bars : List Bar)
    (hv : ∀ b ∈ bars, b.startYr < b.effectiveEndYr) :
    (∀ t : Int, coverCount bars t ≤ colCount bars) ∧
    (∃ t : Int, coverCount bars t = colCount bars) ∧
    (assignCols [⟨0, 1900, 1950⟩, ⟨1, 1920, 1960⟩]).1 =
      [(⟨1, 1920, 1960⟩, 0), (⟨0, 1900, 1950⟩, 1)] ∧
    colCount [⟨0, 1900, 1950⟩, ⟨1, 1920, 1960⟩] = 2 := by
  have hv' : ∀ b ∈ sortBars bars, b.startYr < b.effectiveEndYr := fun b hb =>
    hv b ((List.perm_insertionSort barLe bars).mem_iff.mp hb)
  have inv := foldl_stepFn_inv (sortBars bars) [] [] allocInv_nil
    (fun b hb => le_of_lt (hv' b hb))
  have hbridge : ∀ t, coverPairsCount (assignCols bars).1 t = coverCount bars t := by
    intro t
    rw [coverPairsCount_eq_coverCount]
    have hmap : ((assignCols bars).1).map Prod.fst = sortBars bars := by
      have h := foldl_stepFn_map_fst (sortBars bars) ([], [])
      simpa using h
    rw [hmap]
    unfold coverCount
    exact ((List.perm_insertionSort barLe bars).filter _).length_eq
  have hupper : ∀ t, coverCount bars t ≤ colCount bars := by
    intro t
    rw [← hbridge t]
    exact coverPairsCount_le_avail inv t
  refine ⟨hupper, ?_, rfl, rfl⟩
  have hsorted : (sortBars bars).Pairwise
      (fun a c => c.effectiveEndYr ≤ a.effectiveEndYr) :=
    (List.sorted_insertionSort barLe bars).imp (fun h => by
      rcases h with h | ⟨h, _⟩
      · exact le_of_lt h
      · exact le_of_eq h)
  obtain ⟨t, ht⟩ := foldl_stepFn_cov (sortBars bars) [] [] allocInv_nil hv'
    (by simp) hsorted ⟨0, by simp [coverPairsCount]⟩
  have ht' : colCount bars ≤ coverPairsCount (assignCols bars).1 t := ht
  rw [hbridge t] at ht'
  exact ⟨t, le_antisymm (hupper t) ht'⟩

/-- Witness for `assignCols_minimal_halfOpen` at the two-bar scenario. -/
theorem assignCols_minimal_halfOpen_witness :
    (∀ b ∈ ([⟨0, 1900, 1950⟩, ⟨1, 1920, 1960⟩] : List Bar),
      b.startYr < b.effectiveEndYr) ∧
    ((∀ t : Int, coverCount [⟨0, 1900, 1950⟩, ⟨1, 1920, 1960⟩] t ≤
        colCount [⟨0, 1900, 1950⟩, ⟨1, 1920, 1960⟩]) ∧
      (∃ t : Int, coverCount [⟨0, 1900, 1950⟩, ⟨1, 1920, 1960⟩] t =
        colCount [⟨0, 1900, 1950⟩, ⟨1, 1920, 1960⟩]) ∧
      (assignCols [⟨0, 1900, 1950⟩, ⟨1, 1920, 1960⟩]).1 =
        [(⟨1, 1920, 1960⟩, 0), (⟨0, 1900, 1950⟩, 1)] ∧
      colCount [⟨0, 1900, 1950⟩, ⟨1, 1920, 1960⟩] = 2) :=
  ⟨by decide, assignCols_minimal_halfOpen _ (by decide)⟩

/-- C4: each bar, taken in sorted order, is assigned the smallest column
index whose stored availability year is `>= ` the bar's `effectiveEndYr`
(that entry is then overwritten with the bar's `startYr`); if no column
qualifies, a new column with index equal to the current column count is
appended holding the bar's `startYr`.  Consequently a bar whose
`effectiveEndYr` equals an occupant's `startYr` may share that column:
`A{1900,1920}`, `B{1920,1940}`, `C{1940,1960}` all land in column 0 and
the column count is 1. -/
theorem assignCols_first_fit (st : List (Bar × Nat) × List Int) (bar : Bar) :
    (∃ k, (stepFn st bar).1 = st.1 ++ [(bar, k)] ∧
      (((∃ v, st.2[k]? = some v ∧ bar.effectiveEndYr ≤ v) ∧
          (∀ j, j < k → ∀ v ∈ st.2[j]?, v < bar.effectiveEndYr) ∧
          (stepFn st bar).2 = st.2.set k bar.startYr) ∨
        (k = st.2.length ∧ (∀ v ∈ st.2, v < bar.effectiveEndYr) ∧
          (stepFn st bar).2 = st.2 ++ [bar.startYr]))) ∧
    (assignCols [⟨0, 1900, 1920⟩, ⟨1, 1920, 1940⟩, ⟨2, 1940, 1960⟩]).1 =
      [(⟨2, 1940, 1960⟩, 0), (⟨1, 1920, 1940⟩, 0), (⟨0, 1900, 1920⟩, 0)] ∧
    colCount [⟨0, 1900, 1920⟩, ⟨1, 1920, 1940⟩, ⟨2, 1940, 1960⟩] = 1 :=
  ⟨stepFn_cases st bar, rfl, rfl⟩
